import Mathlib

/-!
Verification of the MediathekApp recommendation server's counting core:
the identifier-interning co-occurrence counter (`src/algorithms/co_occurrence.rs`)
and the rotating time-window counter store (`src/algorithms/rotating_counters.rs`).

Hash maps are embedded as association lists (`List (key × value)`); the map
operations below mirror the `HashMap` operations used by the source
(`get`, `insert`, `entry(..).or_insert(0) += 1`).  Insertion order of the
association list records first-insertion order, which a `HashMap` does not
expose; no theorem below depends on iteration order beyond what the source
guarantees.
-/

/-- Models `HashMap::get`: the value stored for key `k`, if any. -/
def lookupA {α β : Type} [DecidableEq α] : List (α × β) → α → Option β
  | [], _ => none
  | (k', v) :: rest, k => if k' = k then some v else lookupA rest k

/-- Models `HashMap::insert` (overwrite an existing entry, else append). -/
def insertA {α β : Type} [DecidableEq α] : List (α × β) → α → β → List (α × β)
  | [], k, v => [(k, v)]
  | (k', v') :: rest, k, v =>
    if k' = k then (k, v) :: rest else (k', v') :: insertA rest k v

/-- Models `*map.entry(k).or_insert(0) += 1`. -/
def bumpA {α : Type} [DecidableEq α] : List (α × Nat) → α → List (α × Nat)
  | [], k => [(k, 1)]
  | (k', v) :: rest, k =>
    if k' = k then (k', v + 1) :: rest else (k', v) :: bumpA rest k

/-- The count stored for key `k`, reading an absent key as 0. -/
def countOf {α : Type} [DecidableEq α] (m : List (α × Nat)) (k : α) : Nat :=
  (lookupA m k).getD 0

/-- State of `CoOccurrenceCounter` (co_occurrence.rs, lines 7-15):
`identifier_to_id` maps identifier strings to their unique integer IDs,
`co_occurrence_counts` stores counts per canonical ID pair (smaller first),
`next_id` is the next available ID. -/
structure CoOccurrenceCounter where
  identifier_to_id : List (String × Nat)
  co_occurrence_counts : List ((Nat × Nat) × Nat)
  next_id : Nat
  deriving DecidableEq

/-- `CoOccurrenceCounter::new`: empty maps, `next_id = 0`. -/
def CoOccurrenceCounter.new : CoOccurrenceCounter :=
  { identifier_to_id := [], co_occurrence_counts := [], next_id := 0 }

/-- One step of the interning loop in `process_list`:
`self.identifier_to_id.entry(id_str.clone()).or_insert_with(|| { let new_id = self.next_id; self.next_id += 1; new_id })`.
Returns the updated counter and the ID assigned to `s`. -/
def internOne (c : CoOccurrenceCounter) (s : String) : CoOccurrenceCounter × Nat :=
  match lookupA c.identifier_to_id s with
  | some i => (c, i)
  | none =>
    ({ c with identifier_to_id := c.identifier_to_id ++ [(s, c.next_id)],
              next_id := c.next_id + 1 }, c.next_id)

/-- The full interning loop of `process_list` (lines 29-37): interns every
string of the list in order and returns `current_list_ids`. -/
def internList : CoOccurrenceCounter → List String → CoOccurrenceCounter × List Nat
  | c, [] => (c, [])
  | c, s :: rest =>
    let p := internOne c s
    let q := internList p.1 rest
    (q.1, p.2 :: q.2)

/-- `let pair = if id1 < id2 { (id1, id2) } else { (id2, id1) };` (line 48). -/
def canonPair (a b : Nat) : Nat × Nat :=
  if a < b then (a, b) else (b, a)

/-- Inner loop of the pair accounting (lines 44-51): bump the pair of `x`
with each later element of the list. -/
def bumpAgainst (m : List ((Nat × Nat) × Nat)) (x : Nat) :
    List Nat → List ((Nat × Nat) × Nat)
  | [] => m
  | y :: ys => bumpAgainst (bumpA m (canonPair x y)) x ys

/-- Outer loop of the pair accounting (lines 43-52): for every position pair
`(i, j)` with `i < j`, bump the canonical pair of the IDs at those positions. -/
def bumpAllPairs (m : List ((Nat × Nat) × Nat)) :
    List Nat → List ((Nat × Nat) × Nat)
  | [] => m
  | x :: xs => bumpAllPairs (bumpAgainst m x xs) xs

/-- `CoOccurrenceCounter::process_list` (lines 28-53): intern all
identifiers; if the list has fewer than 2 elements return after interning,
else run the pair accounting over `current_list_ids`. -/
def CoOccurrenceCounter.process_list (c : CoOccurrenceCounter)
    (identifiers : List String) : CoOccurrenceCounter :=
  if identifiers.length < 2 then (internList c identifiers).1
  else { (internList c identifiers).1 with
         co_occurrence_counts :=
           bumpAllPairs (internList c identifiers).1.co_occurrence_counts
             (internList c identifiers).2 }

/-- The state after submitting a sequence of lists to a fresh counter. -/
def submitAll (lists : List (List String)) : CoOccurrenceCounter :=
  lists.foldl CoOccurrenceCounter.process_list CoOccurrenceCounter.new

/-- `get_id_to_identifier_map` (lines 68-70): the inverse mapping, built by
swapping every entry of `identifier_to_id`. -/
def CoOccurrenceCounter.get_id_to_identifier_map (c : CoOccurrenceCounter) :
    List (Nat × String) :=
  c.identifier_to_id.map (fun p => (p.2, p.1))

/-- The scan loop of `get_metrics_for_identifier` (lines 82-90): for every
stored pair involving `tid`, insert the other ID's string with the pair's
count.  The source calls `.unwrap()` on the ID-to-string lookup; a failed
lookup (a panic in Rust) is modelled as `none`. -/
def metricsLoop (idMap : List (Nat × String)) (tid : Nat) :
    List ((Nat × Nat) × Nat) → List (String × Nat) → Option (List (String × Nat))
  | [], metrics => some metrics
  | ((a, b), count) :: rest, metrics =>
    if a = tid then
      match lookupA idMap b with
      | some s => metricsLoop idMap tid rest (insertA metrics s count)
      | none => none
    else if b = tid then
      match lookupA idMap a with
      | some s => metricsLoop idMap tid rest (insertA metrics s count)
      | none => none
    else metricsLoop idMap tid rest metrics

/-- `CoOccurrenceCounter::get_metrics_for_identifier` (lines 73-92): empty
map for an unknown identifier, otherwise the scan over all stored pairs. -/
def CoOccurrenceCounter.get_metrics_for_identifier (c : CoOccurrenceCounter)
    (target_id_str : String) : Option (List (String × Nat)) :=
  match lookupA c.identifier_to_id target_id_str with
  | none => some []
  | some target_id =>
    metricsLoop c.get_id_to_identifier_map target_id c.co_occurrence_counts []

/-- Specification-side count: occurrences of `a` in a list of strings. -/
def strCount (a : String) : List String → Nat
  | [] => 0
  | x :: xs => (if x = a then 1 else 0) + strCount a xs

/-- Specification-side count: position pairs `(i, j)` with `i < j` where
position `i` holds `a` and position `j` holds `b`, or vice versa (each
unordered position pair counted once, also when `a = b`). -/
def pairCountInList (a b : String) : List String → Nat
  | [] => 0
  | x :: xs =>
    (if x = a then strCount b xs else 0) +
    (if x = b ∧ ¬a = b then strCount a xs else 0) +
    pairCountInList a b xs

/-- Specification-side count summed over a sequence of submitted lists. -/
def sumPairCounts (a b : String) : List (List String) → Nat
  | [] => 0
  | l :: ls => pairCountInList a b l + sumPairCounts a b ls

/-- Number of later elements `y` of the list whose canonical pair with `x`
is `k` (the contribution of one outer-loop step to key `k`). -/
def countPairWith (x : Nat) (k : Nat × Nat) : List Nat → Nat
  | [] => 0
  | y :: ys => (if canonPair x y = k then 1 else 0) + countPairWith x k ys

/-- Number of position pairs `(i, j)`, `i < j`, of an ID list whose
canonical pair is `k`. -/
def numPairs (k : Nat × Nat) : List Nat → Nat
  | [] => 0
  | x :: xs => countPairWith x k xs + numPairs k xs

/-- A time-window bucket: mapping from identifier string to count. -/
abbrev Bucket := List (String × Nat)

/-- State of `Counters` (rotating_counters.rs, lines 9-30): 16 named buckets
(3 hour slots, 13 day slots) plus the `#[serde(skip)]` dirty flag. -/
structure Counters where
  this_hour : Bucket
  last_hour : Bucket
  hour_minus_2 : Bucket
  today : Bucket
  yesterday : Bucket
  day_minus_2 : Bucket
  day_minus_3 : Bucket
  day_minus_4 : Bucket
  day_minus_5 : Bucket
  day_minus_6 : Bucket
  day_minus_7 : Bucket
  day_minus_8 : Bucket
  day_minus_9 : Bucket
  day_minus_10 : Bucket
  day_minus_11 : Bucket
  day_minus_12 : Bucket
  dirty : Bool
  deriving DecidableEq

/-- `Counters::default()`: every bucket empty, dirty flag false. -/
def Counters.default : Counters :=
  { this_hour := [], last_hour := [], hour_minus_2 := [],
    today := [], yesterday := [], day_minus_2 := [], day_minus_3 := [],
    day_minus_4 := [], day_minus_5 := [], day_minus_6 := [], day_minus_7 := [],
    day_minus_8 := [], day_minus_9 := [], day_minus_10 := [],
    day_minus_11 := [], day_minus_12 := [], dirty := false }

/-- The serialized snapshot document: the 16 buckets and nothing else —
`dirty` carries `#[serde(skip)]`, so it is absent from the JSON document. -/
structure Snapshot where
  this_hour : Bucket
  last_hour : Bucket
  hour_minus_2 : Bucket
  today : Bucket
  yesterday : Bucket
  day_minus_2 : Bucket
  day_minus_3 : Bucket
  day_minus_4 : Bucket
  day_minus_5 : Bucket
  day_minus_6 : Bucket
  day_minus_7 : Bucket
  day_minus_8 : Bucket
  day_minus_9 : Bucket
  day_minus_10 : Bucket
  day_minus_11 : Bucket
  day_minus_12 : Bucket
  deriving DecidableEq

/-- `serde_json::to_string(&self)` at the data-model level: the document
holds exactly the 16 buckets (JSON encoding of string-to-number maps is
lossless, so it is abstracted away; `dirty` is skipped). -/
def serialize (c : Counters) : Snapshot :=
  { this_hour := c.this_hour, last_hour := c.last_hour,
    hour_minus_2 := c.hour_minus_2, today := c.today,
    yesterday := c.yesterday, day_minus_2 := c.day_minus_2,
    day_minus_3 := c.day_minus_3, day_minus_4 := c.day_minus_4,
    day_minus_5 := c.day_minus_5, day_minus_6 := c.day_minus_6,
    day_minus_7 := c.day_minus_7, day_minus_8 := c.day_minus_8,
    day_minus_9 := c.day_minus_9, day_minus_10 := c.day_minus_10,
    day_minus_11 := c.day_minus_11, day_minus_12 := c.day_minus_12 }

/-- `serde_json::from_str` at the data-model level: the 16 buckets are read
from the document; the skipped `dirty` field takes its `Default` value
`false`. -/
def deserialize (s : Snapshot) : Counters :=
  { this_hour := s.this_hour, last_hour := s.last_hour,
    hour_minus_2 := s.hour_minus_2, today := s.today,
    yesterday := s.yesterday, day_minus_2 := s.day_minus_2,
    day_minus_3 := s.day_minus_3, day_minus_4 := s.day_minus_4,
    day_minus_5 := s.day_minus_5, day_minus_6 := s.day_minus_6,
    day_minus_7 := s.day_minus_7, day_minus_8 := s.day_minus_8,
    day_minus_9 := s.day_minus_9, day_minus_10 := s.day_minus_10,
    day_minus_11 := s.day_minus_11, day_minus_12 := s.day_minus_12,
    dirty := false }

/-- `Counters::new` (lines 33-42): the snapshot file's state is `some doc`
when `rotating_counters.json` exists, is readable and parses, else `none`
(a missing or malformed file); on `none` fall back to `Counters::default()`. -/
def Counters.new (file : Option Snapshot) : Counters :=
  match file with
  | some s => deserialize s
  | none => Counters.default

/-- `Counters::persist` (lines 44-53).  It takes `&self`, so it can change
only the file, never the in-memory state.  `serOk` is whether
`serde_json::to_string` succeeded, `writeOk` whether `fs::write` succeeded
(its error is discarded by `let _ =`); on any failure the file keeps its
previous state.  Nothing is written when the dirty flag is unset. -/
def Counters.persist (c : Counters) (serOk writeOk : Bool)
    (file : Option Snapshot) : Option Snapshot :=
  if c.dirty then
    if serOk then
      if writeOk then some (serialize c) else file
    else file
  else file

/-- `Counters::rotate_hour` (lines 55-63). -/
def Counters.rotate_hour (c : Counters) : Counters :=
  if c.this_hour.isEmpty then c
  else { c with hour_minus_2 := c.last_hour, last_hour := c.this_hour,
                this_hour := [], dirty := true }

/-- `Counters::rotate_day` (lines 65-83).  Each Rust assignment reads a
field that has not yet been overwritten, so the hand-unrolled sequence
equals this simultaneous record update. -/
def Counters.rotate_day (c : Counters) : Counters :=
  if c.today.isEmpty then c
  else { c with day_minus_12 := c.day_minus_11, day_minus_11 := c.day_minus_10,
                day_minus_10 := c.day_minus_9, day_minus_9 := c.day_minus_8,
                day_minus_8 := c.day_minus_7, day_minus_7 := c.day_minus_6,
                day_minus_6 := c.day_minus_5, day_minus_5 := c.day_minus_4,
                day_minus_4 := c.day_minus_3, day_minus_3 := c.day_minus_2,
                day_minus_2 := c.yesterday, yesterday := c.today,
                today := [], dirty := true }

/-- `Counters::increment` (lines 85-89). -/
def Counters.increment (c : Counters) (id : String) : Counters :=
  { c with this_hour := bumpA c.this_hour id,
           today := bumpA c.today id, dirty := true }

/-- `increment` iterated N times on the same identifier. -/
def incrementN (c : Counters) (id : String) : Nat → Counters
  | 0 => c
  | n + 1 => (incrementN c id n).increment id

/-- One evaluation cycle of the rotation scheduler: the body of the
`web::block` closure in `run_daily_counter_rotation` (lines 114-132).
`hourChanged`/`dayChanged` abstract the wall-clock comparisons
`now.hour() != last_hour` / `now.day() != last_day`.  Note that after
calling `persist` the closure sets `c.dirty = false` unconditionally,
whatever the outcome of the write. -/
def scheduler_eval (c : Counters) (hourChanged dayChanged serOk writeOk : Bool)
    (file : Option Snapshot) : Counters × Option Snapshot :=
  let c1 := if hourChanged then c.rotate_hour else c
  let c2 := if dayChanged then c1.rotate_day else c1
  let rotated := hourChanged || dayChanged
  if c2.dirty || rotated then
    ({ c2 with dirty := false }, c2.persist serOk writeOk file)
  else (c2, file)

/-- An entry of the pair table produces output key `s` for target ID `tid`
exactly when the scan loop of `get_metrics_for_identifier` inserts `s` for
it: either its first ID component equals `tid` and the second maps to `s`,
or (else-if) its first differs from `tid`, its second equals `tid`, and the
first maps to `s`. -/
def entryMatches (idMap : List (Nat × String)) (tid : Nat)
    (e : (Nat × Nat) × Nat) (s : String) : Prop :=
  (e.1.1 = tid ∧ lookupA idMap e.1.2 = some s) ∨
  (¬ e.1.1 = tid ∧ e.1.2 = tid ∧ lookupA idMap e.1.1 = some s)

section AssocLemmas

variable {α β : Type} [DecidableEq α]

theorem lookupA_append_of_some {m1 : List (α × β)} (m2 : List (α × β)) {k : α}
    {v : β} (h : lookupA m1 k = some v) : lookupA (m1 ++ m2) k = some v := by
  induction m1 with
  | nil => simp [lookupA] at h
  | cons p rest ih =>
    obtain ⟨k', v'⟩ := p
    simp only [lookupA, List.cons_append] at h ⊢
    split at h
    · simp_all [lookupA]
    · rename_i hne
      rw [if_neg hne]
      exact ih h

theorem lookupA_append_of_none {m1 : List (α × β)} (m2 : List (α × β)) {k : α}
    (h : lookupA m1 k = none) : lookupA (m1 ++ m2) k = lookupA m2 k := by
  induction m1 with
  | nil => simp
  | cons p rest ih =>
    obtain ⟨k', v'⟩ := p
    simp only [lookupA, List.cons_append] at h ⊢
    split at h
    · exact absurd h (by simp)
    · rename_i hne
      rw [if_neg hne]
      exact ih h

theorem lookupA_eq_none_iff {m : List (α × β)} {k : α} :
    lookupA m k = none ↔ k ∉ m.map Prod.fst := by
  induction m with
  | nil => simp [lookupA]
  | cons p rest ih =>
    obtain ⟨k', v'⟩ := p
    simp only [lookupA, List.map_cons, List.mem_cons]
    split
    · simp_all
    · rename_i hne
      rw [ih]
      constructor
      · intro h hk
        rcases hk with hk | hk
        · exact hne hk.symm
        · exact h hk
      · intro h hk
        exact h (Or.inr hk)

theorem lookupA_mem {m : List (α × β)} {k : α} {v : β}
    (h : lookupA m k = some v) : (k, v) ∈ m := by
  induction m with
  | nil => simp [lookupA] at h
  | cons p rest ih =>
    obtain ⟨k', v'⟩ := p
    simp only [lookupA] at h
    split at h
    · rename_i he
      cases h
      simp [he]
    · exact List.mem_cons_of_mem _ (ih h)

theorem lookupA_of_mem_nodup {m : List (α × β)} {k : α} {v : β}
    (hm : (k, v) ∈ m) (hn : (m.map Prod.fst).Nodup) : lookupA m k = some v := by
  induction m with
  | nil => simp at hm
  | cons p rest ih =>
    obtain ⟨k', v'⟩ := p
    simp only [List.map_cons, List.nodup_cons] at hn
    rcases List.mem_cons.mp hm with he | hm'
    · cases he
      simp [lookupA]
    · have hne : k' ≠ k := by
        intro hkk
        subst hkk
        exact hn.1 (List.mem_map.mpr ⟨(k', v), hm', rfl⟩)
      simp only [lookupA, if_neg hne]
      exact ih hm' hn.2

theorem lookupA_isSome_of_mem_keys {m : List (α × β)} {k : α}
    (h : k ∈ m.map Prod.fst) : ∃ v, lookupA m k = some v := by
  cases hv : lookupA m k with
  | none => exact absurd h (lookupA_eq_none_iff.mp hv)
  | some v => exact ⟨v, rfl⟩

theorem lookupA_val_mem {m : List (α × β)} {k : α} {v : β}
    (h : lookupA m k = some v) : v ∈ m.map Prod.snd :=
  List.mem_map.mpr ⟨(k, v), lookupA_mem h, rfl⟩

theorem lookupA_insertA_self (m : List (α × β)) (k : α) (v : β) :
    lookupA (insertA m k v) k = some v := by
  induction m with
  | nil => simp [insertA, lookupA]
  | cons p rest ih =>
    obtain ⟨k', v'⟩ := p
    simp only [insertA]
    split
    · simp [lookupA]
    · rename_i hne
      simp only [lookupA, if_neg hne]
      exact ih

theorem lookupA_insertA_ne (m : List (α × β)) {k k' : α} (v : β)
    (h : k' ≠ k) : lookupA (insertA m k v) k' = lookupA m k' := by
  have hkk : ¬ k = k' := fun he => h he.symm
  induction m with
  | nil =>
    simp only [insertA, lookupA]
    rw [if_neg hkk]
  | cons p rest ih =>
    obtain ⟨k'', v''⟩ := p
    simp only [insertA]
    split
    · rename_i he
      subst he
      simp only [lookupA]
      rw [if_neg hkk, if_neg hkk]
    · simp only [lookupA]
      split
      · rfl
      · exact ih

theorem countOf_bumpA (m : List (α × Nat)) (k k' : α) :
    countOf (bumpA m k) k' = countOf m k' + (if k' = k then 1 else 0) := by
  induction m with
  | nil =>
    by_cases hk : k = k'
    · subst hk
      simp [bumpA, countOf, lookupA]
    · have hk' : ¬ k' = k := fun h => hk h.symm
      simp [bumpA, countOf, lookupA, hk, hk']
  | cons p rest ih =>
    obtain ⟨k'', v⟩ := p
    by_cases he : k'' = k
    · subst he
      by_cases he2 : k'' = k'
      · subst he2
        simp [bumpA, countOf, lookupA]
      · have he2' : ¬ k' = k'' := fun h => he2 h.symm
        simp [bumpA, countOf, lookupA, he2, he2']
    · by_cases he2 : k'' = k'
      · subst he2
        have he' : ¬ k = k'' := fun h => he (h.symm)
        have he'' : ¬ k'' = k := he
        simp [bumpA, countOf, lookupA, he', he'']
      · simp only [bumpA, countOf, lookupA] at ih ⊢
        rw [if_neg he]
        simp only [lookupA]
        rw [if_neg he2, if_neg he2]
        exact ih

theorem bumpA_keys (m : List (α × Nat)) (k : α) :
    (bumpA m k).map Prod.fst =
      if k ∈ m.map Prod.fst then m.map Prod.fst else m.map Prod.fst ++ [k] := by
  induction m with
  | nil => simp [bumpA]
  | cons p rest ih =>
    obtain ⟨k', v⟩ := p
    simp only [bumpA]
    split
    · rename_i he
      subst he
      simp
    · rename_i hne
      simp only [List.map_cons, ih]
      by_cases hk : k ∈ rest.map Prod.fst
      · rw [if_pos hk, if_pos (List.mem_cons.mpr (Or.inr hk))]
      · rw [if_neg hk, if_neg]
        · simp [ih, hk]
        · intro hc
          rcases List.mem_cons.mp hc with he | hm
          · exact hne he.symm
          · exact hk hm

theorem bumpA_key_cases {m : List (α × Nat)} {k : α} {p : α × Nat}
    (h : p ∈ bumpA m k) : p.1 ∈ m.map Prod.fst ∨ p.1 = k := by
  have hk : p.1 ∈ (bumpA m k).map Prod.fst := List.mem_map.mpr ⟨p, h, rfl⟩
  rw [bumpA_keys] at hk
  split at hk
  · exact Or.inl hk
  · rcases List.mem_append.mp hk with hm | hm
    · exact Or.inl hm
    · exact Or.inr (List.mem_singleton.mp hm)

theorem bumpA_keys_nodup {m : List (α × Nat)} {k : α}
    (h : (m.map Prod.fst).Nodup) : ((bumpA m k).map Prod.fst).Nodup := by
  rw [bumpA_keys]
  split
  · exact h
  · rename_i hk
    simpa using List.Nodup.append h (List.nodup_singleton k) (by simpa using hk)

end AssocLemmas

/-- Well-formedness of the identifier registry: distinct strings, and the
assigned IDs (in first-seen order) are exactly `0, 1, …, next_id - 1`. -/
def regWF (c : CoOccurrenceCounter) : Prop :=
  (c.identifier_to_id.map Prod.fst).Nodup ∧
  c.identifier_to_id.map Prod.snd = List.range c.next_id

/-- Well-formedness of the pair-count table: distinct keys, every key
canonical (`min ≤ max`) with both components assigned IDs. -/
def countsWF (c : CoOccurrenceCounter) : Prop :=
  (c.co_occurrence_counts.map Prod.fst).Nodup ∧
  ∀ K ∈ c.co_occurrence_counts.map Prod.fst, K.1 ≤ K.2 ∧ K.2 < c.next_id

/-- Invariant of every reachable `CoOccurrenceCounter` state. -/
def WF (c : CoOccurrenceCounter) : Prop :=
  regWF c ∧ countsWF c

theorem internOne_counts (c : CoOccurrenceCounter) (s : String) :
    (internOne c s).1.co_occurrence_counts = c.co_occurrence_counts := by
  cases hv : lookupA c.identifier_to_id s <;> simp [internOne, hv]

theorem internOne_next_le (c : CoOccurrenceCounter) (s : String) :
    c.next_id ≤ (internOne c s).1.next_id := by
  cases hv : lookupA c.identifier_to_id s <;> simp [internOne, hv]

theorem internOne_append (c : CoOccurrenceCounter) (s : String) :
    ∃ ext, (internOne c s).1.identifier_to_id = c.identifier_to_id ++ ext := by
  cases hv : lookupA c.identifier_to_id s
  · exact ⟨[(s, c.next_id)], by simp [internOne, hv]⟩
  · exact ⟨[], by simp [internOne, hv]⟩

theorem internOne_preserves {c : CoOccurrenceCounter} {t : String} {j : Nat}
    (s : String) (h : lookupA c.identifier_to_id t = some j) :
    lookupA (internOne c s).1.identifier_to_id t = some j := by
  obtain ⟨ext, hext⟩ := internOne_append c s
  rw [hext]
  exact lookupA_append_of_some ext h

theorem internOne_lookup_self (c : CoOccurrenceCounter) (s : String) :
    lookupA (internOne c s).1.identifier_to_id s = some (internOne c s).2 := by
  cases hv : lookupA c.identifier_to_id s with
  | some i => simp [internOne, hv]
  | none =>
    simp only [internOne, hv]
    rw [lookupA_append_of_none _ hv]
    simp [lookupA]

theorem internOne_regWF {c : CoOccurrenceCounter} (s : String) (h : regWF c) :
    regWF (internOne c s).1 := by
  cases hv : lookupA c.identifier_to_id s with
  | some i => simpa [internOne, hv] using h
  | none =>
    obtain ⟨hnd, hrange⟩ := h
    constructor
    · simp only [internOne, hv, List.map_append, List.map_cons, List.map_nil]
      refine List.Nodup.append hnd (List.nodup_singleton s) ?_
      intro a ha hb
      rw [List.mem_singleton] at hb
      subst hb
      exact (lookupA_eq_none_iff.mp hv) ha
    · simp [internOne, hv, hrange, List.range_succ]

theorem internList_counts (l : List String) :
    ∀ c : CoOccurrenceCounter,
      (internList c l).1.co_occurrence_counts = c.co_occurrence_counts := by
  induction l with
  | nil => intro c; rfl
  | cons s rest ih =>
    intro c
    simp only [internList]
    rw [ih]
    exact internOne_counts c s

theorem internList_next_le (l : List String) :
    ∀ c : CoOccurrenceCounter, c.next_id ≤ (internList c l).1.next_id := by
  induction l with
  | nil => intro c; exact Nat.le_refl _
  | cons s rest ih =>
    intro c
    simp only [internList]
    exact Nat.le_trans (internOne_next_le c s) (ih (internOne c s).1)

theorem internList_preserves (l : List String) :
    ∀ (c : CoOccurrenceCounter) (t : String) (j : Nat),
      lookupA c.identifier_to_id t = some j →
      lookupA (internList c l).1.identifier_to_id t = some j := by
  induction l with
  | nil => intro c t j h; exact h
  | cons s rest ih =>
    intro c t j h
    simp only [internList]
    exact ih (internOne c s).1 t j (internOne_preserves s h)

theorem internList_append (l : List String) :
    ∀ c : CoOccurrenceCounter,
      ∃ ext, (internList c l).1.identifier_to_id = c.identifier_to_id ++ ext := by
  induction l with
  | nil => intro c; exact ⟨[], by simp [internList]⟩
  | cons s rest ih =>
    intro c
    obtain ⟨e1, he1⟩ := internOne_append c s
    obtain ⟨e2, he2⟩ := ih (internOne c s).1
    refine ⟨e1 ++ e2, ?_⟩
    simp only [internList]
    rw [he2, he1, List.append_assoc]

theorem internList_regWF (l : List String) :
    ∀ c : CoOccurrenceCounter, regWF c → regWF (internList c l).1 := by
  induction l with
  | nil => intro c h; exact h
  | cons s rest ih =>
    intro c h
    simp only [internList]
    exact ih (internOne c s).1 (internOne_regWF s h)

theorem internList_mem_lookup (l : List String) :
    ∀ (c : CoOccurrenceCounter) (s : String), s ∈ l →
      ∃ j, lookupA (internList c l).1.identifier_to_id s = some j := by
  induction l with
  | nil => intro c s h; simp at h
  | cons x rest ih =>
    intro c s h
    rcases List.mem_cons.mp h with he | hm
    · subst he
      simp only [internList]
      exact ⟨(internOne c s).2,
        internList_preserves rest _ s _ (internOne_lookup_self c s)⟩
    · simp only [internList]
      exact ih (internOne c x).1 s hm

theorem internList_ids (l : List String) :
    ∀ c : CoOccurrenceCounter,
      (internList c l).2 =
        l.map (fun s => (lookupA (internList c l).1.identifier_to_id s).getD 0) := by
  induction l with
  | nil => intro c; rfl
  | cons s rest ih =>
    intro c
    simp only [internList, List.map_cons]
    have h1 := internOne_lookup_self c s
    have h2 := internList_preserves rest (internOne c s).1 s _ h1
    rw [h2]
    simp only [Option.getD_some, List.cons.injEq]
    exact ⟨trivial, ih (internOne c s).1⟩

theorem internList_ids_length (l : List String) (c : CoOccurrenceCounter) :
    (internList c l).2.length = l.length := by
  rw [internList_ids]
  exact List.length_map _ _

theorem internList_ids_lt (l : List String) (c : CoOccurrenceCounter)
    (h : regWF c) :
    ∀ i ∈ (internList c l).2, i < (internList c l).1.next_id := by
  intro i hi
  rw [internList_ids] at hi
  obtain ⟨s, hs, hfs⟩ := List.mem_map.mp hi
  obtain ⟨j, hj⟩ := internList_mem_lookup l c s hs
  rw [hj] at hfs
  simp only [Option.getD_some] at hfs
  subst hfs
  have hmem : j ∈ (internList c l).1.identifier_to_id.map Prod.snd :=
    lookupA_val_mem hj
  rw [(internList_regWF l c h).2] at hmem
  exact List.mem_range.mp hmem

theorem canonPair_fst_le (x y : Nat) : (canonPair x y).1 ≤ (canonPair x y).2 := by
  unfold canonPair
  split <;> simp <;> omega

theorem canonPair_snd_lt {x y N : Nat} (hx : x < N) (hy : y < N) :
    (canonPair x y).2 < N := by
  unfold canonPair
  split <;> simpa

theorem canonPair_eq_iff (x y a b : Nat) :
    canonPair x y = canonPair a b ↔ (x = a ∧ y = b) ∨ (x = b ∧ y = a) := by
  unfold canonPair
  split <;> split <;> simp only [Prod.mk.injEq] <;> omega

theorem bumpAgainst_count (ys : List Nat) :
    ∀ (m : List ((Nat × Nat) × Nat)) (x : Nat) (k : Nat × Nat),
      countOf (bumpAgainst m x ys) k = countOf m k + countPairWith x k ys := by
  induction ys with
  | nil => intro m x k; simp [bumpAgainst, countPairWith]
  | cons y ys ih =>
    intro m x k
    simp only [bumpAgainst, countPairWith]
    rw [ih, countOf_bumpA]
    by_cases hk : canonPair x y = k
    · rw [if_pos hk, if_pos hk.symm]
      omega
    · rw [if_neg hk, if_neg (fun h => hk h.symm)]
      omega

theorem bumpAllPairs_count (l : List Nat) :
    ∀ (m : List ((Nat × Nat) × Nat)) (k : Nat × Nat),
      countOf (bumpAllPairs m l) k = countOf m k + numPairs k l := by
  induction l with
  | nil => intro m k; simp [bumpAllPairs, numPairs]
  | cons x xs ih =>
    intro m k
    simp only [bumpAllPairs, numPairs]
    rw [ih, bumpAgainst_count]
    omega

theorem bumpAgainst_keys_sub (ys : List Nat) :
    ∀ (m : List ((Nat × Nat) × Nat)) (x : Nat) (K : Nat × Nat),
      K ∈ (bumpAgainst m x ys).map Prod.fst →
      K ∈ m.map Prod.fst ∨ ∃ y ∈ ys, K = canonPair x y := by
  induction ys with
  | nil => intro m x K h; exact Or.inl h
  | cons y ys ih =>
    intro m x K h
    rcases ih _ _ _ h with hm | ⟨y', hy', he⟩
    · rw [bumpA_keys] at hm
      split at hm
      · exact Or.inl hm
      · rcases List.mem_append.mp hm with h1 | h1
        · exact Or.inl h1
        · exact Or.inr ⟨y, List.mem_cons_self y ys, List.mem_singleton.mp h1⟩
    · exact Or.inr ⟨y', List.mem_cons_of_mem y hy', he⟩

theorem bumpAgainst_keys_nodup (ys : List Nat) :
    ∀ (m : List ((Nat × Nat) × Nat)) (x : Nat),
      (m.map Prod.fst).Nodup → ((bumpAgainst m x ys).map Prod.fst).Nodup := by
  induction ys with
  | nil => intro m x h; exact h
  | cons y ys ih =>
    intro m x h
    exact ih _ x (bumpA_keys_nodup h)

theorem bumpAllPairs_keys_sub (l : List Nat) :
    ∀ (m : List ((Nat × Nat) × Nat)) (K : Nat × Nat),
      K ∈ (bumpAllPairs m l).map Prod.fst →
      K ∈ m.map Prod.fst ∨ ∃ x ∈ l, ∃ y ∈ l, K = canonPair x y := by
  induction l with
  | nil => intro m K h; exact Or.inl h
  | cons x xs ih =>
    intro m K h
    rcases ih _ _ h with hm | ⟨x', hx', y', hy', he⟩
    · rcases bumpAgainst_keys_sub xs m x K hm with h1 | ⟨y, hy, he⟩
      · exact Or.inl h1
      · exact Or.inr ⟨x, List.mem_cons_self x xs, y, List.mem_cons_of_mem x hy, he⟩
    · exact Or.inr ⟨x', List.mem_cons_of_mem x hx', y',
        List.mem_cons_of_mem x hy', he⟩

theorem bumpAllPairs_keys_nodup (l : List Nat) :
    ∀ (m : List ((Nat × Nat) × Nat)),
      (m.map Prod.fst).Nodup → ((bumpAllPairs m l).map Prod.fst).Nodup := by
  induction l with
  | nil => intro m h; exact h
  | cons x xs ih =>
    intro m h
    exact ih _ (bumpAgainst_keys_nodup xs m x h)

theorem process_list_reg (c : CoOccurrenceCounter) (l : List String) :
    (c.process_list l).identifier_to_id = (internList c l).1.identifier_to_id := by
  unfold CoOccurrenceCounter.process_list
  split <;> rfl

theorem process_list_next_id (c : CoOccurrenceCounter) (l : List String) :
    (c.process_list l).next_id = (internList c l).1.next_id := by
  unfold CoOccurrenceCounter.process_list
  split <;> rfl

theorem process_list_counts_eq (c : CoOccurrenceCounter) (l : List String) :
    (c.process_list l).co_occurrence_counts =
      bumpAllPairs c.co_occurrence_counts (internList c l).2 := by
  unfold CoOccurrenceCounter.process_list
  split
  · rename_i hl
    rw [internList_counts]
    have hlen : (internList c l).2.length < 2 := by
      rw [internList_ids_length]; exact hl
    cases hids : (internList c l).2 with
    | nil => rfl
    | cons a t =>
      cases t with
      | nil => rfl
      | cons b t2 =>
        rw [hids] at hlen
        simp at hlen
        omega
  · rw [internList_counts]

theorem process_list_countOf (c : CoOccurrenceCounter) (l : List String)
    (k : Nat × Nat) :
    countOf (c.process_list l).co_occurrence_counts k =
      countOf c.co_occurrence_counts k + numPairs k (internList c l).2 := by
  rw [process_list_counts_eq, bumpAllPairs_count]

theorem process_list_WF {c : CoOccurrenceCounter} (l : List String)
    (h : WF c) : WF (c.process_list l) := by
  obtain ⟨hreg, hcnt⟩ := h
  have hreg' := internList_regWF l c hreg
  constructor
  · unfold regWF
    rw [process_list_reg, process_list_next_id]
    exact hreg'
  · constructor
    · rw [process_list_counts_eq]
      exact bumpAllPairs_keys_nodup _ _ hcnt.1
    · intro K hK
      rw [process_list_counts_eq] at hK
      rw [process_list_next_id]
      rcases bumpAllPairs_keys_sub _ _ _ hK with hm | ⟨x, hx, y, hy, he⟩
      · have := hcnt.2 K hm
        exact ⟨this.1, Nat.lt_of_lt_of_le this.2 (internList_next_le l c)⟩
      · subst he
        have hx' := internList_ids_lt l c hreg x hx
        have hy' := internList_ids_lt l c hreg y hy
        exact ⟨canonPair_fst_le x y, canonPair_snd_lt hx' hy'⟩

theorem WF_new : WF CoOccurrenceCounter.new := by
  refine ⟨⟨?_, ?_⟩, ⟨?_, ?_⟩⟩ <;> simp [CoOccurrenceCounter.new]

theorem foldl_WF (lists : List (List String)) :
    ∀ c : CoOccurrenceCounter, WF c →
      WF (lists.foldl CoOccurrenceCounter.process_list c) := by
  induction lists with
  | nil => intro c h; exact h
  | cons l ls ih =>
    intro c h
    exact ih _ (process_list_WF l h)

theorem WF_submitAll (lists : List (List String)) : WF (submitAll lists) :=
  foldl_WF lists _ WF_new

theorem foldl_preserves (lists : List (List String)) :
    ∀ (c : CoOccurrenceCounter) (t : String) (j : Nat),
      lookupA c.identifier_to_id t = some j →
      lookupA (lists.foldl CoOccurrenceCounter.process_list c).identifier_to_id t
        = some j := by
  induction lists with
  | nil => intro c t j h; exact h
  | cons l ls ih =>
    intro c t j h
    refine ih _ t j ?_
    rw [process_list_reg]
    exact internList_preserves l c t j h

theorem foldl_reg_append (lists : List (List String)) :
    ∀ c : CoOccurrenceCounter,
      ∃ ext, (lists.foldl CoOccurrenceCounter.process_list c).identifier_to_id
        = c.identifier_to_id ++ ext := by
  induction lists with
  | nil => intro c; exact ⟨[], by simp⟩
  | cons l ls ih =>
    intro c
    obtain ⟨e2, he2⟩ := ih (c.process_list l)
    obtain ⟨e1, he1⟩ := internList_append l c
    refine ⟨e1 ++ e2, ?_⟩
    simp only [List.foldl_cons]
    rw [he2, process_list_reg, he1, List.append_assoc]

theorem reg_lookup_inj {c : CoOccurrenceCounter} (h : regWF c) {a b : String}
    {i : Nat} (ha : lookupA c.identifier_to_id a = some i)
    (hb : lookupA c.identifier_to_id b = some i) : a = b := by
  have hnd : (c.identifier_to_id.map Prod.snd).Nodup := by
    rw [h.2]; exact List.nodup_range _
  have hma := lookupA_mem ha
  have hmb := lookupA_mem hb
  have := List.inj_on_of_nodup_map hnd hma hmb rfl
  exact congrArg Prod.fst this

theorem late_intern_ge {c c' : CoOccurrenceCounter} {ext : List (String × Nat)}
    {a : String} {ia : Nat}
    (hext : c'.identifier_to_id = c.identifier_to_id ++ ext)
    (hc : regWF c) (hc' : regWF c')
    (hnone : lookupA c.identifier_to_id a = none)
    (hsome : lookupA c'.identifier_to_id a = some ia) : c.next_id ≤ ia := by
  by_contra hlt
  push_neg at hlt
  have hrange : ia ∈ c.identifier_to_id.map Prod.snd := by
    rw [hc.2]; exact List.mem_range.mpr hlt
  obtain ⟨p, hp, hp2⟩ := List.mem_map.mp hrange
  have hp' : p ∈ c'.identifier_to_id := by
    rw [hext]; exact List.mem_append_left _ hp
  have hma : (a, ia) ∈ c'.identifier_to_id := lookupA_mem hsome
  have hnd : (c'.identifier_to_id.map Prod.snd).Nodup := by
    rw [hc'.2]; exact List.nodup_range _
  have hpa : p = (a, ia) := List.inj_on_of_nodup_map hnd hp' hma (by simpa using hp2)
  subst hpa
  rw [lookupA_of_mem_nodup hp hc.1] at hnone
  exact Option.noConfusion hnone

theorem canonPair_left_le (x y : Nat) : x ≤ (canonPair x y).2 := by
  unfold canonPair
  split <;> simp only [] <;> omega

theorem countPairWith_zero {x : Nat} {K : Nat × Nat} {N : Nat} (ys : List Nat)
    (hx : x < N) (hys : ∀ y ∈ ys, y < N) (hK : N ≤ K.2) :
    countPairWith x K ys = 0 := by
  induction ys with
  | nil => rfl
  | cons y ys ih =>
    simp only [countPairWith]
    have hy : y < N := hys y (List.mem_cons_self y ys)
    rw [if_neg, ih (fun z hz => hys z (List.mem_cons_of_mem y hz))]
    intro he
    have := canonPair_snd_lt hx hy
    rw [he] at this
    omega

theorem numPairs_zero (ids : List Nat) {K : Nat × Nat} {N : Nat}
    (hids : ∀ i ∈ ids, i < N) (hK : N ≤ K.2) : numPairs K ids = 0 := by
  induction ids with
  | nil => rfl
  | cons x xs ih =>
    simp only [numPairs]
    rw [countPairWith_zero xs (hids x (List.mem_cons_self x xs))
        (fun y hy => hids y (List.mem_cons_of_mem x hy)) hK,
      ih (fun i hi => hids i (List.mem_cons_of_mem x hi))]

theorem strCount_eq_zero {a : String} {l : List String} (h : a ∉ l) :
    strCount a l = 0 := by
  induction l with
  | nil => rfl
  | cons x xs ih =>
    simp only [strCount]
    have hx : ¬ x = a := fun he => h (by rw [← he]; exact List.mem_cons_self x xs)
    rw [if_neg hx, ih (fun hm => h (List.mem_cons_of_mem x hm))]

theorem pairCountInList_zero_left {a b : String} {l : List String} (h : a ∉ l) :
    pairCountInList a b l = 0 := by
  induction l with
  | nil => rfl
  | cons x xs ih =>
    have hx : ¬ x = a := fun he => h (by rw [← he]; exact List.mem_cons_self x xs)
    have ha : a ∉ xs := fun hm => h (List.mem_cons_of_mem x hm)
    simp only [pairCountInList]
    rw [if_neg hx, ih ha, strCount_eq_zero ha]
    simp

theorem pairCountInList_zero_right {a b : String} {l : List String} (h : b ∉ l) :
    pairCountInList a b l = 0 := by
  induction l with
  | nil => rfl
  | cons x xs ih =>
    have hx : ¬ x = b := fun he => h (by rw [← he]; exact List.mem_cons_self x xs)
    have hb : b ∉ xs := fun hm => h (List.mem_cons_of_mem x hm)
    simp only [pairCountInList]
    rw [ih hb, strCount_eq_zero hb]
    simp only [hx, false_and, if_false]
    simp

theorem countPairWith_head (f : String → Nat) (x a b : String) (ys : List String)
    (hinj : ∀ u ∈ x :: a :: b :: ys, ∀ v ∈ x :: a :: b :: ys, f u = f v → u = v) :
    countPairWith (f x) (canonPair (f a) (f b)) (ys.map f) =
      (if x = a then strCount b ys else 0) +
      (if x = b ∧ ¬ a = b then strCount a ys else 0) := by
  induction ys with
  | nil =>
    simp only [List.map_nil, countPairWith, strCount]
    split <;> split <;> rfl
  | cons y ys ih =>
    have hinj' : ∀ u ∈ x :: a :: b :: ys, ∀ v ∈ x :: a :: b :: ys,
        f u = f v → u = v := by
      intro u hu v hv
      refine hinj u ?_ v ?_ <;> simp only [List.mem_cons] at hu hv ⊢ <;> tauto
    have hxm : x ∈ x :: a :: b :: y :: ys := by simp
    have ham : a ∈ x :: a :: b :: y :: ys := by simp
    have hbm : b ∈ x :: a :: b :: y :: ys := by simp
    have hym : y ∈ x :: a :: b :: y :: ys := by simp
    have hP : (canonPair (f x) (f y) = canonPair (f a) (f b)) ↔
        ((x = a ∧ y = b) ∨ (x = b ∧ y = a)) := by
      rw [canonPair_eq_iff]
      constructor
      · rintro (⟨h1, h2⟩ | ⟨h1, h2⟩)
        · exact Or.inl ⟨hinj x hxm a ham h1, hinj y hym b hbm h2⟩
        · exact Or.inr ⟨hinj x hxm b hbm h1, hinj y hym a ham h2⟩
      · rintro (⟨h1, h2⟩ | ⟨h1, h2⟩)
        · subst h1; subst h2; exact Or.inl ⟨rfl, rfl⟩
        · subst h1; subst h2; exact Or.inr ⟨rfl, rfl⟩
    simp only [List.map_cons, countPairWith, strCount]
    rw [ih hinj', if_congr hP rfl rfl]
    clear ih hinj hinj' hP hxm ham hbm hym
    generalize strCount b ys = B
    generalize strCount a ys = A
    by_cases hxa : x = a <;> by_cases hxb : x = b <;> by_cases hab : a = b <;>
        by_cases hyb : y = b <;> by_cases hya : y = a <;>
      simp_all

theorem numPairs_map (f : String → Nat) (a b : String) (l : List String)
    (hinj : ∀ u ∈ a :: b :: l, ∀ v ∈ a :: b :: l, f u = f v → u = v) :
    numPairs (canonPair (f a) (f b)) (l.map f) = pairCountInList a b l := by
  induction l with
  | nil => rfl
  | cons x xs ih =>
    have hinj1 : ∀ u ∈ x :: a :: b :: xs, ∀ v ∈ x :: a :: b :: xs,
        f u = f v → u = v := by
      intro u hu v hv
      refine hinj u ?_ v ?_ <;> simp only [List.mem_cons] at hu hv ⊢ <;> tauto
    have hinj2 : ∀ u ∈ a :: b :: xs, ∀ v ∈ a :: b :: xs,
        f u = f v → u = v := by
      intro u hu v hv
      refine hinj u ?_ v ?_ <;> simp only [List.mem_cons] at hu hv ⊢ <;> tauto
    simp only [List.map_cons, numPairs, pairCountInList]
    rw [countPairWith_head f x a b xs hinj1, ih hinj2]

theorem canonPair_right_le (x y : Nat) : y ≤ (canonPair x y).2 := by
  unfold canonPair
  split <;> simp only [] <;> omega

theorem submit_counts (lists : List (List String)) :
    ∀ (c : CoOccurrenceCounter), WF c →
    ∀ (a b : String) (ia ib : Nat),
      lookupA (lists.foldl CoOccurrenceCounter.process_list c).identifier_to_id a
        = some ia →
      lookupA (lists.foldl CoOccurrenceCounter.process_list c).identifier_to_id b
        = some ib →
      countOf (lists.foldl CoOccurrenceCounter.process_list c).co_occurrence_counts
          (canonPair ia ib)
        = countOf c.co_occurrence_counts (canonPair ia ib) +
            sumPairCounts a b lists := by
  induction lists with
  | nil =>
    intro c hWF a b ia ib ha hb
    simp [sumPairCounts]
  | cons l ls ih =>
    intro c hWF a b ia ib ha hb
    simp only [List.foldl_cons] at ha hb ⊢
    have hWF' : WF (c.process_list l) := process_list_WF l hWF
    rw [ih (c.process_list l) hWF' a b ia ib ha hb, process_list_countOf]
    simp only [sumPairCounts]
    have hregd : regWF (internList c l).1 := internList_regWF l c hWF.1
    have key : numPairs (canonPair ia ib) (internList c l).2 =
        pairCountInList a b l := by
      cases hla : lookupA (internList c l).1.identifier_to_id a with
      | none =>
        have hla' : lookupA (c.process_list l).identifier_to_id a = none := by
          rw [process_list_reg]; exact hla
        have hanotin : a ∉ l := by
          intro hmem
          obtain ⟨j, hj⟩ := internList_mem_lookup l c a hmem
          rw [hj] at hla
          exact Option.noConfusion hla
        obtain ⟨ext, hext⟩ := foldl_reg_append ls (c.process_list l)
        have hge : (c.process_list l).next_id ≤ ia :=
          late_intern_ge hext hWF'.1 (foldl_WF ls _ hWF').1 hla' ha
        have h0 : numPairs (canonPair ia ib) (internList c l).2 = 0 := by
          refine numPairs_zero _ (internList_ids_lt l c hWF.1) ?_
          have h1 : (internList c l).1.next_id ≤ ia := by
            rw [← process_list_next_id]; exact hge
          exact Nat.le_trans h1 (canonPair_left_le ia ib)
        rw [h0, pairCountInList_zero_left hanotin]
      | some ja =>
        have hja : ja = ia := by
          have h1 : lookupA (c.process_list l).identifier_to_id a = some ja := by
            rw [process_list_reg]; exact hla
          exact Option.some.inj ((foldl_preserves ls _ a ja h1).symm.trans ha)
        cases hlb : lookupA (internList c l).1.identifier_to_id b with
        | none =>
          have hlb' : lookupA (c.process_list l).identifier_to_id b = none := by
            rw [process_list_reg]; exact hlb
          have hbnotin : b ∉ l := by
            intro hmem
            obtain ⟨j, hj⟩ := internList_mem_lookup l c b hmem
            rw [hj] at hlb
            exact Option.noConfusion hlb
          obtain ⟨ext, hext⟩ := foldl_reg_append ls (c.process_list l)
          have hge : (c.process_list l).next_id ≤ ib :=
            late_intern_ge hext hWF'.1 (foldl_WF ls _ hWF').1 hlb' hb
          have h0 : numPairs (canonPair ia ib) (internList c l).2 = 0 := by
            refine numPairs_zero _ (internList_ids_lt l c hWF.1) ?_
            have h1 : (internList c l).1.next_id ≤ ib := by
              rw [← process_list_next_id]; exact hge
            exact Nat.le_trans h1 (canonPair_right_le ia ib)
          rw [h0, pairCountInList_zero_right hbnotin]
        | some jb =>
          have hjb : jb = ib := by
            have h1 : lookupA (c.process_list l).identifier_to_id b = some jb := by
              rw [process_list_reg]; exact hlb
            exact Option.some.inj ((foldl_preserves ls _ b jb h1).symm.trans hb)
          subst hja
          subst hjb
          set f := fun s =>
            (lookupA (internList c l).1.identifier_to_id s).getD 0 with hf
          have hfa : f a = ja := by rw [hf]; simp [hla]
          have hfb : f b = jb := by rw [hf]; simp [hlb]
          have hinj : ∀ u ∈ a :: b :: l, ∀ v ∈ a :: b :: l,
              f u = f v → u = v := by
            intro u hu v hv hfe
            have hu' : ∃ ju, lookupA (internList c l).1.identifier_to_id u
                = some ju := by
              rcases List.mem_cons.mp hu with he | hu2
              · rw [he]; exact ⟨ja, hla⟩
              · rcases List.mem_cons.mp hu2 with he | hu3
                · rw [he]; exact ⟨jb, hlb⟩
                · exact internList_mem_lookup l c u hu3
            have hv' : ∃ jv, lookupA (internList c l).1.identifier_to_id v
                = some jv := by
              rcases List.mem_cons.mp hv with he | hv2
              · rw [he]; exact ⟨ja, hla⟩
              · rcases List.mem_cons.mp hv2 with he | hv3
                · rw [he]; exact ⟨jb, hlb⟩
                · exact internList_mem_lookup l c v hv3
            obtain ⟨ju, hju⟩ := hu'
            obtain ⟨jv, hjv⟩ := hv'
            rw [hf] at hfe
            simp only [hju, hjv, Option.getD_some] at hfe
            exact reg_lookup_inj hregd hju (hfe ▸ hjv)
          rw [internList_ids l c, ← hfa, ← hfb]
          exact numPairs_map f a b l hinj
    omega

theorem scheduler_eval_dirty (c : Counters) (hc dc serOk writeOk : Bool)
    (file : Option Snapshot) :
    (scheduler_eval c hc dc serOk writeOk file).1.dirty = false := by
  simp only [scheduler_eval]
  repeat' split
  all_goals first
    | rfl
    | (rename_i h; simp only [Bool.or_eq_true, not_or] at h;
       exact (Bool.not_eq_true _) ▸ h.1)

theorem incrementN_frame (c : Counters) (X : String) (N : Nat) :
    (incrementN c X N).last_hour = c.last_hour ∧
    (incrementN c X N).hour_minus_2 = c.hour_minus_2 ∧
    (incrementN c X N).yesterday = c.yesterday ∧
    (incrementN c X N).day_minus_2 = c.day_minus_2 ∧
    (incrementN c X N).day_minus_3 = c.day_minus_3 ∧
    (incrementN c X N).day_minus_4 = c.day_minus_4 ∧
    (incrementN c X N).day_minus_5 = c.day_minus_5 ∧
    (incrementN c X N).day_minus_6 = c.day_minus_6 ∧
    (incrementN c X N).day_minus_7 = c.day_minus_7 ∧
    (incrementN c X N).day_minus_8 = c.day_minus_8 ∧
    (incrementN c X N).day_minus_9 = c.day_minus_9 ∧
    (incrementN c X N).day_minus_10 = c.day_minus_10 ∧
    (incrementN c X N).day_minus_11 = c.day_minus_11 ∧
    (incrementN c X N).day_minus_12 = c.day_minus_12 := by
  induction N with
  | zero => exact ⟨rfl, rfl, rfl, rfl, rfl, rfl, rfl, rfl, rfl, rfl, rfl, rfl, rfl, rfl⟩
  | succ n ih => simpa [incrementN, Counters.increment] using ih

theorem incrementN_this_hour (c : Counters) (X : String) (N : Nat) :
    countOf (incrementN c X N).this_hour X = countOf c.this_hour X + N := by
  induction N with
  | zero => rfl
  | succ n ih =>
    simp only [incrementN, Counters.increment]
    rw [countOf_bumpA, ih, if_pos rfl]
    omega

theorem incrementN_today (c : Counters) (X : String) (N : Nat) :
    countOf (incrementN c X N).today X = countOf c.today X + N := by
  induction N with
  | zero => rfl
  | succ n ih =>
    simp only [incrementN, Counters.increment]
    rw [countOf_bumpA, ih, if_pos rfl]
    omega

/-- C8: starting from any Bucket Store state in which `X` is absent from
both `this_hour` and `today`, N calls of `increment(X)` with no intervening
rotation give `this_hour[X] == today[X] == N`; any such call with N ≥ 1
sets the dirty flag; and increment changes no bucket other than `this_hour`
and `today`. -/
theorem increment_spec (c : Counters) (X : String) (N : Nat)
    (h1 : lookupA c.this_hour X = none) (h2 : lookupA c.today X = none) :
    countOf (incrementN c X N).this_hour X = N ∧
    countOf (incrementN c X N).today X = N ∧
    (1 ≤ N → (incrementN c X N).dirty = true) ∧
    (incrementN c X N).last_hour = c.last_hour ∧
    (incrementN c X N).hour_minus_2 = c.hour_minus_2 ∧
    (incrementN c X N).yesterday = c.yesterday ∧
    (incrementN c X N).day_minus_2 = c.day_minus_2 ∧
    (incrementN c X N).day_minus_3 = c.day_minus_3 ∧
    (incrementN c X N).day_minus_4 = c.day_minus_4 ∧
    (incrementN c X N).day_minus_5 = c.day_minus_5 ∧
    (incrementN c X N).day_minus_6 = c.day_minus_6 ∧
    (incrementN c X N).day_minus_7 = c.day_minus_7 ∧
    (incrementN c X N).day_minus_8 = c.day_minus_8 ∧
    (incrementN c X N).day_minus_9 = c.day_minus_9 ∧
    (incrementN c X N).day_minus_10 = c.day_minus_10 ∧
    (incrementN c X N).day_minus_11 = c.day_minus_11 ∧
    (incrementN c X N).day_minus_12 = c.day_minus_12 := by
  have hc1 : countOf c.this_hour X = 0 := by simp [countOf, h1]
  have hc2 : countOf c.today X = 0 := by simp [countOf, h2]
  refine ⟨?_, ?_, ?_, incrementN_frame c X N⟩
  · rw [incrementN_this_hour, hc1]
    omega
  · rw [incrementN_today, hc2]
    omega
  · intro hN
    cases N with
    | zero => omega
    | succ n => rfl

/-- Witness for C8 at a concrete input: three increments of "X" on the
empty store yield count 3 in `this_hour` and `today` and set the dirty
flag. -/
theorem increment_spec_witness :
    lookupA Counters.default.this_hour "X" = none ∧
    lookupA Counters.default.today "X" = none ∧
    countOf (incrementN Counters.default "X" 3).this_hour "X" = 3 ∧
    countOf (incrementN Counters.default "X" 3).today "X" = 3 ∧
    (incrementN Counters.default "X" 3).dirty = true := by
  have h := increment_spec Counters.default "X" 3 rfl rfl
  exact ⟨rfl, rfl, h.1, h.2.1, h.2.2.1 (by decide)⟩

/-- C5: `rotate_hour` on an empty `this_hour` is a complete no-op (all 16
buckets and the dirty flag untouched); on a non-empty `this_hour` it shifts
`hour_minus_2 := last_hour`, `last_hour := this_hour`, clears `this_hour`,
sets the dirty flag, and leaves every other bucket unchanged. -/
theorem rotate_hour_spec (c : Counters) :
    (c.this_hour = [] → c.rotate_hour = c) ∧
    (c.this_hour ≠ [] →
      c.rotate_hour.hour_minus_2 = c.last_hour ∧
      c.rotate_hour.last_hour = c.this_hour ∧
      c.rotate_hour.this_hour = [] ∧
      c.rotate_hour.dirty = true ∧
      c.rotate_hour.today = c.today ∧
      c.rotate_hour.yesterday = c.yesterday ∧
      c.rotate_hour.day_minus_2 = c.day_minus_2 ∧
      c.rotate_hour.day_minus_3 = c.day_minus_3 ∧
      c.rotate_hour.day_minus_4 = c.day_minus_4 ∧
      c.rotate_hour.day_minus_5 = c.day_minus_5 ∧
      c.rotate_hour.day_minus_6 = c.day_minus_6 ∧
      c.rotate_hour.day_minus_7 = c.day_minus_7 ∧
      c.rotate_hour.day_minus_8 = c.day_minus_8 ∧
      c.rotate_hour.day_minus_9 = c.day_minus_9 ∧
      c.rotate_hour.day_minus_10 = c.day_minus_10 ∧
      c.rotate_hour.day_minus_11 = c.day_minus_11 ∧
      c.rotate_hour.day_minus_12 = c.day_minus_12) := by
  constructor
  · intro h
    simp [Counters.rotate_hour, h]
  · intro h
    have he : c.this_hour.isEmpty = false := by
      cases hh : c.this_hour with
      | nil => exact absurd hh h
      | cons p t => rfl
    simp [Counters.rotate_hour, he]

/-- Witness for C5 at a concrete input: both the empty-guard no-op (on the
default store) and the shift (on a store whose `this_hour` is non-empty). -/
theorem rotate_hour_spec_witness :
    Counters.default.rotate_hour = Counters.default ∧
    ({ Counters.default with
        this_hour := [("X", 1)],
        last_hour := [("Y", 2)] } : Counters).rotate_hour.hour_minus_2
      = [("Y", 2)] := by
  constructor
  · exact (rotate_hour_spec Counters.default).1 rfl
  · exact ((rotate_hour_spec _).2 (by decide)).1

/-- C4: `rotate_day` on a non-empty `today` shifts the 13 day buckets by
one position (discarding the prior `day_minus_12`), clears `today`, and
sets the dirty flag; on an empty `today` it changes nothing. -/
theorem rotate_day_spec (c : Counters) :
    (c.today = [] → c.rotate_day = c) ∧
    (c.today ≠ [] →
      c.rotate_day.day_minus_12 = c.day_minus_11 ∧
      c.rotate_day.day_minus_11 = c.day_minus_10 ∧
      c.rotate_day.day_minus_10 = c.day_minus_9 ∧
      c.rotate_day.day_minus_9 = c.day_minus_8 ∧
      c.rotate_day.day_minus_8 = c.day_minus_7 ∧
      c.rotate_day.day_minus_7 = c.day_minus_6 ∧
      c.rotate_day.day_minus_6 = c.day_minus_5 ∧
      c.rotate_day.day_minus_5 = c.day_minus_4 ∧
      c.rotate_day.day_minus_4 = c.day_minus_3 ∧
      c.rotate_day.day_minus_3 = c.day_minus_2 ∧
      c.rotate_day.day_minus_2 = c.yesterday ∧
      c.rotate_day.yesterday = c.today ∧
      c.rotate_day.today = [] ∧
      c.rotate_day.dirty = true) := by
  constructor
  · intro h
    simp [Counters.rotate_day, h]
  · intro h
    have he : c.today.isEmpty = false := by
      cases hh : c.today with
      | nil => exact absurd hh h
      | cons p t => rfl
    simp [Counters.rotate_day, he]

/-- Witness for C4 at a concrete input: the empty-guard no-op and, on a
store with non-empty `today`, the shift of `yesterday` into `day_minus_2`
and of `today` into `yesterday`. -/
theorem rotate_day_spec_witness :
    Counters.default.rotate_day = Counters.default ∧
    ({ Counters.default with
        today := [("X", 1)],
        yesterday := [("Y", 2)] } : Counters).rotate_day.day_minus_2
      = [("Y", 2)] ∧
    ({ Counters.default with
        today := [("X", 1)],
        yesterday := [("Y", 2)] } : Counters).rotate_day.yesterday
      = [("X", 1)] := by
  refine ⟨(rotate_day_spec Counters.default).1 rfl, ?_, ?_⟩
  · exact ((rotate_day_spec _).2 (by decide)).2.2.2.2.2.2.2.2.2.2.1
  · exact ((rotate_day_spec _).2 (by decide)).2.2.2.2.2.2.2.2.2.2.2.1

/-- C2 counterexample: in a state with the dirty flag set, an evaluation
cycle whose write fails (`writeOk = false`; nothing reaches the snapshot
file, which stays `none`) still clears the dirty flag — contradicting the
claim that on failure the dirty flag remains set so the next scheduled
evaluation retries. -/
theorem scheduler_dirty_counterexample :
    ({ Counters.default with
        this_hour := [("X", 1)],
        today := [("X", 1)],
        dirty := true } : Counters).dirty = true ∧
    (scheduler_eval { Counters.default with
        this_hour := [("X", 1)],
        today := [("X", 1)],
        dirty := true } false false true false none).2 = none ∧
    (scheduler_eval { Counters.default with
        this_hour := [("X", 1)],
        today := [("X", 1)],
        dirty := true } false false true false none).1.dirty = false :=
  ⟨rfl, rfl, rfl⟩

/-- C2 (amended): `persist()` with the dirty flag set and a successful
serialization and write overwrites the snapshot with all 16 buckets; with
the flag unset it writes nothing; on a failed write the file is untouched
(the `fs::write` error is discarded) and `persist` itself never modifies
the in-memory state (`&self`); and the scheduler's evaluation cycle ends
with the dirty flag cleared unconditionally — also when the write failed —
so a failed write is not retried via the dirty flag. -/
theorem persist_scheduler_spec :
    (∀ (c : Counters) (file : Option Snapshot), c.dirty = true →
        c.persist true true file = some (serialize c)) ∧
    (∀ (c : Counters) (serOk writeOk : Bool) (file : Option Snapshot),
        c.dirty = false → c.persist serOk writeOk file = file) ∧
    (∀ (c : Counters) (serOk : Bool) (file : Option Snapshot),
        c.persist serOk false file = file) ∧
    (∀ (c : Counters) (hc dc serOk writeOk : Bool) (file : Option Snapshot),
        (scheduler_eval c hc dc serOk writeOk file).1.dirty = false) := by
  refine ⟨?_, ?_, ?_, scheduler_eval_dirty⟩
  · intro c file h
    simp [Counters.persist, h]
  · intro c serOk writeOk file h
    simp [Counters.persist, h]
  · intro c serOk file
    unfold Counters.persist
    split
    · split
      · rfl
      · rfl
    · rfl

/-- Witness for the amended C2 at a concrete input: a dirty store persists
its serialized 16 buckets when serialization and write succeed. -/
theorem persist_scheduler_spec_witness :
    ({ Counters.default with dirty := true } : Counters).dirty = true ∧
    ({ Counters.default with dirty := true } : Counters).persist true true none
      = some (serialize { Counters.default with dirty := true }) :=
  ⟨rfl, persist_scheduler_spec.1 { Counters.default with dirty := true } none rfl⟩

/-- C3: a successful persist (dirty flag set, serialization and write both
succeed) followed by a fresh load reproduces the same 16 buckets with the
dirty flag false; the dirty flag is false immediately after every load
(`dirty` is `#[serde(skip)]`); and a missing-or-malformed snapshot loads
as the empty store without error. -/
theorem persist_load_roundtrip :
    (∀ (c : Counters) (file : Option Snapshot), c.dirty = true →
        Counters.new (c.persist true true file) = { c with dirty := false }) ∧
    (∀ file : Option Snapshot, (Counters.new file).dirty = false) ∧
    Counters.new none = Counters.default := by
  refine ⟨?_, ?_, rfl⟩
  · intro c file h
    have hp : c.persist true true file = some (serialize c) := by
      simp [Counters.persist, h]
    rw [hp]
    rfl
  · intro file
    cases file <;> rfl

/-- Witness for C3 at a concrete input: persisting a dirty one-entry store
and loading the result restores its buckets with the dirty flag cleared. -/
theorem persist_load_roundtrip_witness :
    ({ Counters.default with
        today := [("X", 4)],
        dirty := true } : Counters).dirty = true ∧
    Counters.new (({ Counters.default with
        today := [("X", 4)],
        dirty := true } : Counters).persist true true none)
      = { Counters.default with today := [("X", 4)], dirty := false } :=
  ⟨rfl, persist_load_roundtrip.1 { Counters.default with
      today := [("X", 4)], dirty := true } none rfl⟩

/-- C1: for every sequence of submits, the recorded count for the
canonical pair of the IDs of strings `a` and `b` equals the number of
position pairs (i, j), i < j, linking `a` and `b`, summed over all
submitted lists — repeated occurrences counted per position, including
self-pairs — and the concrete example of the claim yields exactly the five
stated pair counts, with IDs A=0, B=1, C=2, D=3. -/
theorem pair_count_spec :
    (∀ (lists : List (List String)) (a b : String) (ia ib : Nat),
        lookupA (submitAll lists).identifier_to_id a = some ia →
        lookupA (submitAll lists).identifier_to_id b = some ib →
        countOf (submitAll lists).co_occurrence_counts (canonPair ia ib)
          = sumPairCounts a b lists) ∧
    ((submitAll [["A", "B", "C"], ["B", "C", "D"], ["A", "C"]]).identifier_to_id
        = [("A", 0), ("B", 1), ("C", 2), ("D", 3)] ∧
     (submitAll [["A", "B", "C"], ["B", "C", "D"], ["A", "C"]]).co_occurrence_counts
        = [((0, 1), 1), ((0, 2), 2), ((1, 2), 2), ((1, 3), 1), ((2, 3), 1)]) := by
  constructor
  · intro lists a b ia ib ha hb
    have h := submit_counts lists CoOccurrenceCounter.new WF_new a b ia ib ha hb
    simpa [CoOccurrenceCounter.new, countOf, lookupA] using h
  · exact ⟨by decide, by decide⟩

/-- Witness for C1 at the claim's example: the recorded count for the
canonical pair of "A" (ID 0) and "C" (ID 2) equals the summed
position-pair count over the three lists. -/
theorem pair_count_spec_witness :
    lookupA (submitAll [["A", "B", "C"], ["B", "C", "D"], ["A", "C"]]).identifier_to_id
        "A" = some 0 ∧
    lookupA (submitAll [["A", "B", "C"], ["B", "C", "D"], ["A", "C"]]).identifier_to_id
        "C" = some 2 ∧
    countOf (submitAll [["A", "B", "C"], ["B", "C", "D"], ["A", "C"]]).co_occurrence_counts
        (canonPair 0 2)
      = sumPairCounts "A" "C" [["A", "B", "C"], ["B", "C", "D"], ["A", "C"]] :=
  ⟨by decide, by decide,
    pair_count_spec.1 [["A", "B", "C"], ["B", "C", "D"], ["A", "C"]] "A" "C" 0 2
      (by decide) (by decide)⟩

/-- C7: identifier-to-ID assignment is stable (extending the submit
sequence never changes an assigned ID) and injective; the registry, in
first-seen order, carries IDs 0, 1, 2, … consecutively (its value column
is `range next_id`); interning runs for every submitted list, including
lists of length 0 or 1, for which the pair table is untouched. -/
theorem identifier_assignment_spec :
    (∀ (lists more : List (List String)) (s : String) (i : Nat),
        lookupA (submitAll lists).identifier_to_id s = some i →
        lookupA (submitAll (lists ++ more)).identifier_to_id s = some i) ∧
    (∀ (lists : List (List String)) (a b : String) (i : Nat),
        lookupA (submitAll lists).identifier_to_id a = some i →
        lookupA (submitAll lists).identifier_to_id b = some i → a = b) ∧
    (∀ lists : List (List String),
        (submitAll lists).identifier_to_id.map Prod.snd
          = List.range (submitAll lists).next_id) ∧
    (∀ (c : CoOccurrenceCounter) (l : List String) (s : String), s ∈ l →
        ∃ i, lookupA (c.process_list l).identifier_to_id s = some i) ∧
    (∀ (c : CoOccurrenceCounter) (l : List String), l.length < 2 →
        (c.process_list l).co_occurrence_counts = c.co_occurrence_counts) := by
  refine ⟨?_, ?_, ?_, ?_, ?_⟩
  · intro lists more s i h
    unfold submitAll
    rw [List.foldl_append]
    exact foldl_preserves more _ s i h
  · intro lists a b i ha hb
    exact reg_lookup_inj (WF_submitAll lists).1 ha hb
  · intro lists
    exact (WF_submitAll lists).1.2
  · intro c l s hs
    rw [process_list_reg]
    exact internList_mem_lookup l c s hs
  · intro c l h
    unfold CoOccurrenceCounter.process_list
    rw [if_pos h, internList_counts]

/-- Witness for C7 at a concrete input: "B" keeps ID 1 after a further
submit call. -/
theorem identifier_assignment_spec_witness :
    lookupA (submitAll [["A", "B"]]).identifier_to_id "B" = some 1 ∧
    lookupA (submitAll ([["A", "B"]] ++ [["C", "B"]])).identifier_to_id "B"
      = some 1 :=
  ⟨by decide,
    identifier_assignment_spec.1 [["A", "B"]] [["C", "B"]] "B" 1 (by decide)⟩

/-- C9: recorded counts never decrease: one `process_list` application
leaves every pair count at or above its previous value, and one
`increment` leaves every entry of `this_hour` and `today` at or above its
previous value (absent keys read as 0). -/
theorem counts_monotone :
    (∀ (c : CoOccurrenceCounter) (l : List String) (k : Nat × Nat),
        countOf c.co_occurrence_counts k ≤
          countOf (c.process_list l).co_occurrence_counts k) ∧
    (∀ (c : Counters) (s k : String),
        countOf c.this_hour k ≤ countOf (c.increment s).this_hour k ∧
        countOf c.today k ≤ countOf (c.increment s).today k) := by
  constructor
  · intro c l k
    rw [process_list_countOf]
    omega
  · intro c s k
    constructor
    · show countOf c.this_hour k ≤ countOf (bumpA c.this_hour s) k
      rw [countOf_bumpA]
      omega
    · show countOf c.today k ≤ countOf (bumpA c.today s) k
      rw [countOf_bumpA]
      omega

theorem canonPair_eq_left {x y : Nat} (h : x ≤ y) : canonPair x y = (x, y) := by
  unfold canonPair
  split
  · rfl
  · rename_i hlt
    have : x = y := by omega
    rw [this]

theorem canonPair_eq_right {x y : Nat} (h : y ≤ x) : canonPair x y = (y, x) := by
  unfold canonPair
  split
  · rename_i hlt
    omega
  · rfl

theorem entryMatches_of_fst {idMap : List (Nat × String)} {tid a b cnt : Nat}
    {s0 : String} (ha : a = tid) (hb : lookupA idMap b = some s0) :
    ∀ s, entryMatches idMap tid ((a, b), cnt) s ↔ s = s0 := by
  intro s
  unfold entryMatches
  simp only []
  constructor
  · rintro (⟨_, h⟩ | ⟨hna, _, _⟩)
    · rw [hb] at h
      exact (Option.some.inj h).symm
    · exact absurd ha hna
  · intro h
    subst h
    exact Or.inl ⟨ha, hb⟩

theorem entryMatches_of_snd {idMap : List (Nat × String)} {tid a b cnt : Nat}
    {s0 : String} (hna : ¬ a = tid) (hb : b = tid)
    (hla : lookupA idMap a = some s0) :
    ∀ s, entryMatches idMap tid ((a, b), cnt) s ↔ s = s0 := by
  intro s
  unfold entryMatches
  simp only []
  constructor
  · rintro (⟨h1, _⟩ | ⟨_, _, h⟩)
    · exact absurd h1 hna
    · rw [hla] at h
      exact (Option.some.inj h).symm
  · intro h
    subst h
    exact Or.inr ⟨hna, hb, hla⟩

theorem entryMatches_none {idMap : List (Nat × String)} {tid a b cnt : Nat}
    (hna : ¬ a = tid) (hnb : ¬ b = tid) :
    ∀ s, ¬ entryMatches idMap tid ((a, b), cnt) s := by
  intro s hm
  rcases hm with ⟨h1, _⟩ | ⟨_, h2, _⟩
  · exact hna h1
  · exact hnb h2

theorem matched_step (idMap : List (Nat × String)) (tid : Nat)
    (e : (Nat × Nat) × Nat) (rest : List ((Nat × Nat) × Nat))
    (m0 mf : List (String × Nat)) (s0 : String)
    (hmatch : ∀ s, entryMatches idMap tid e s ↔ s = s0)
    (huniq : ∀ e1 ∈ e :: rest, ∀ e2 ∈ e :: rest, ∀ s,
        entryMatches idMap tid e1 s → entryMatches idMap tid e2 s → e1 = e2)
    (hnodup : ((e :: rest).map Prod.fst).Nodup)
    (hiff : ∀ (s : String) (n : Nat),
        lookupA mf s = some n ↔
          ((∃ e' ∈ rest, entryMatches idMap tid e' s ∧ e'.2 = n) ∨
           ((∀ e' ∈ rest, ¬ entryMatches idMap tid e' s) ∧
             lookupA (insertA m0 s0 e.2) s = some n))) :
    ∀ (s : String) (n : Nat),
      lookupA mf s = some n ↔
        ((∃ e' ∈ e :: rest, entryMatches idMap tid e' s ∧ e'.2 = n) ∨
         ((∀ e' ∈ e :: rest, ¬ entryMatches idMap tid e' s) ∧
           lookupA m0 s = some n)) := by
  intro s n
  rw [hiff s n]
  by_cases hs : s = s0
  · have hme : entryMatches idMap tid e s := (hmatch s).mpr hs
    have hrest : ∀ e' ∈ rest, ¬ entryMatches idMap tid e' s := by
      intro e' he' hm'
      have heq : e' = e := huniq e' (List.mem_cons_of_mem e he') e
        (List.mem_cons_self e rest) s hm' hme
      subst heq
      have : e'.1 ∈ rest.map Prod.fst := List.mem_map.mpr ⟨e', he', rfl⟩
      rw [List.map_cons, List.nodup_cons] at hnodup
      exact hnodup.1 this
    have hins : lookupA (insertA m0 s0 e.2) s = some e.2 := by
      rw [hs]
      exact lookupA_insertA_self m0 s0 e.2
    constructor
    · rintro (⟨e', he', hm', _⟩ | ⟨_, h2⟩)
      · exact absurd hm' (hrest e' he')
      · rw [hins] at h2
        exact Or.inl ⟨e, List.mem_cons_self e rest, hme, Option.some.inj h2⟩
    · rintro (⟨e', he', hm', hv⟩ | ⟨hall, _⟩)
      · rcases List.mem_cons.mp he' with heq | hin
        · subst heq
          refine Or.inr ⟨hrest, ?_⟩
          rw [hins, hv]
        · exact absurd hm' (hrest e' hin)
      · exact absurd hme (hall e (List.mem_cons_self e rest))
  · have hne : ¬ entryMatches idMap tid e s := fun hm => hs ((hmatch s).mp hm)
    have hins : lookupA (insertA m0 s0 e.2) s = lookupA m0 s :=
      lookupA_insertA_ne m0 e.2 hs
    rw [hins]
    constructor
    · rintro (⟨e', he', hm', hv⟩ | ⟨hall, h2⟩)
      · exact Or.inl ⟨e', List.mem_cons_of_mem e he', hm', hv⟩
      · refine Or.inr ⟨?_, h2⟩
        intro e' he'
        rcases List.mem_cons.mp he' with heq | hin
        · subst heq
          exact hne
        · exact hall e' hin
    · rintro (⟨e', he', hm', hv⟩ | ⟨hall, h2⟩)
      · rcases List.mem_cons.mp he' with heq | hin
        · subst heq
          exact absurd hm' hne
        · exact Or.inl ⟨e', hin, hm', hv⟩
      · exact Or.inr ⟨fun e' hin => hall e' (List.mem_cons_of_mem e hin), h2⟩

theorem unmatched_step (idMap : List (Nat × String)) (tid : Nat)
    (e : (Nat × Nat) × Nat) (rest : List ((Nat × Nat) × Nat))
    (m0 mf : List (String × Nat))
    (hno : ∀ s, ¬ entryMatches idMap tid e s)
    (hiff : ∀ (s : String) (n : Nat),
        lookupA mf s = some n ↔
          ((∃ e' ∈ rest, entryMatches idMap tid e' s ∧ e'.2 = n) ∨
           ((∀ e' ∈ rest, ¬ entryMatches idMap tid e' s) ∧
             lookupA m0 s = some n))) :
    ∀ (s : String) (n : Nat),
      lookupA mf s = some n ↔
        ((∃ e' ∈ e :: rest, entryMatches idMap tid e' s ∧ e'.2 = n) ∨
         ((∀ e' ∈ e :: rest, ¬ entryMatches idMap tid e' s) ∧
           lookupA m0 s = some n)) := by
  intro s n
  rw [hiff s n]
  constructor
  · rintro (⟨e', he', hm', hv⟩ | ⟨hall, h2⟩)
    · exact Or.inl ⟨e', List.mem_cons_of_mem e he', hm', hv⟩
    · refine Or.inr ⟨?_, h2⟩
      intro e' he'
      rcases List.mem_cons.mp he' with heq | hin
      · subst heq
        exact hno s
      · exact hall e' hin
  · rintro (⟨e', he', hm', hv⟩ | ⟨hall, h2⟩)
    · rcases List.mem_cons.mp he' with heq | hin
      · subst heq
        exact absurd hm' (hno s)
      · exact Or.inl ⟨e', hin, hm', hv⟩
    · exact Or.inr ⟨fun e' hin => hall e' (List.mem_cons_of_mem e hin), h2⟩

theorem metricsLoop_spec (idMap : List (Nat × String)) (tid : Nat) :
    ∀ (entries : List ((Nat × Nat) × Nat)) (m0 : List (String × Nat)),
    (∀ e ∈ entries, e.1.1 = tid → (lookupA idMap e.1.2).isSome) →
    (∀ e ∈ entries, ¬ e.1.1 = tid → e.1.2 = tid → (lookupA idMap e.1.1).isSome) →
    (∀ e1 ∈ entries, ∀ e2 ∈ entries, ∀ s, entryMatches idMap tid e1 s →
        entryMatches idMap tid e2 s → e1 = e2) →
    (entries.map Prod.fst).Nodup →
    ∃ mf, metricsLoop idMap tid entries m0 = some mf ∧
      ∀ (s : String) (n : Nat),
        lookupA mf s = some n ↔
          ((∃ e ∈ entries, entryMatches idMap tid e s ∧ e.2 = n) ∨
           ((∀ e ∈ entries, ¬ entryMatches idMap tid e s) ∧
              lookupA m0 s = some n)) := by
  intro entries
  induction entries with
  | nil =>
    intro m0 _ _ _ _
    refine ⟨m0, rfl, ?_⟩
    intro s n
    simp
  | cons e rest ih =>
    intro m0 hdom1 hdom2 huniq hnodup
    have hnodup' : (rest.map Prod.fst).Nodup := by
      rw [List.map_cons, List.nodup_cons] at hnodup
      exact hnodup.2
    have hdom1' := fun e' he' => hdom1 e' (List.mem_cons_of_mem e he')
    have hdom2' := fun e' he' => hdom2 e' (List.mem_cons_of_mem e he')
    have huniq' := fun e1 h1 e2 h2 =>
      huniq e1 (List.mem_cons_of_mem e h1) e2 (List.mem_cons_of_mem e h2)
    obtain ⟨⟨a, b⟩, cnt⟩ := e
    by_cases ha : a = tid
    · have hb := hdom1 ((a, b), cnt) (List.mem_cons_self _ rest) ha
      obtain ⟨s0, hs0⟩ := Option.isSome_iff_exists.mp hb
      have hloop : metricsLoop idMap tid (((a, b), cnt) :: rest) m0
          = metricsLoop idMap tid rest (insertA m0 s0 cnt) := by
        simp [metricsLoop, ha, hs0]
      obtain ⟨mf, hmf, hiff⟩ := ih (insertA m0 s0 cnt) hdom1' hdom2' huniq' hnodup'
      refine ⟨mf, hloop ▸ hmf, ?_⟩
      exact matched_step idMap tid ((a, b), cnt) rest m0 mf s0
        (entryMatches_of_fst ha hs0) huniq hnodup hiff
    · by_cases hbt : b = tid
      · have hb := hdom2 ((a, b), cnt) (List.mem_cons_self _ rest) ha hbt
        obtain ⟨s0, hs0⟩ := Option.isSome_iff_exists.mp hb
        have hloop : metricsLoop idMap tid (((a, b), cnt) :: rest) m0
            = metricsLoop idMap tid rest (insertA m0 s0 cnt) := by
          simp [metricsLoop, ha, hbt, hs0]
        obtain ⟨mf, hmf, hiff⟩ := ih (insertA m0 s0 cnt) hdom1' hdom2' huniq' hnodup'
        refine ⟨mf, hloop ▸ hmf, ?_⟩
        exact matched_step idMap tid ((a, b), cnt) rest m0 mf s0
          (entryMatches_of_snd ha hbt hs0) huniq hnodup hiff
      · have hloop : metricsLoop idMap tid (((a, b), cnt) :: rest) m0
            = metricsLoop idMap tid rest m0 := by
          simp [metricsLoop, ha, hbt]
        obtain ⟨mf, hmf, hiff⟩ := ih m0 hdom1' hdom2' huniq' hnodup'
        refine ⟨mf, hloop ▸ hmf, ?_⟩
        exact unmatched_step idMap tid ((a, b), cnt) rest m0 mf
          (entryMatches_none ha hbt) hiff

theorem idMap_keys (c : CoOccurrenceCounter) :
    c.get_id_to_identifier_map.map Prod.fst = c.identifier_to_id.map Prod.snd := by
  unfold CoOccurrenceCounter.get_id_to_identifier_map
  rw [List.map_map]
  rfl

theorem idMap_mem {c : CoOccurrenceCounter} {i : Nat} {s : String} :
    (i, s) ∈ c.get_id_to_identifier_map ↔ (s, i) ∈ c.identifier_to_id := by
  unfold CoOccurrenceCounter.get_id_to_identifier_map
  constructor
  · intro h
    obtain ⟨p, hp, he⟩ := List.mem_map.mp h
    obtain ⟨p1, p2⟩ := p
    cases he
    exact hp
  · intro h
    exact List.mem_map.mpr ⟨(s, i), h, rfl⟩

theorem idMap_lookup_iff {c : CoOccurrenceCounter} (h : regWF c) {i : Nat}
    {s : String} :
    lookupA c.get_id_to_identifier_map i = some s ↔
      (s, i) ∈ c.identifier_to_id := by
  have hnd : (c.get_id_to_identifier_map.map Prod.fst).Nodup := by
    rw [idMap_keys, h.2]
    exact List.nodup_range _
  constructor
  · intro hl
    exact idMap_mem.mp (lookupA_mem hl)
  · intro hm
    exact lookupA_of_mem_nodup (idMap_mem.mpr hm) hnd

theorem idMap_lookup_inj {c : CoOccurrenceCounter} (h : regWF c) {i j : Nat}
    {s : String} (hi : lookupA c.get_id_to_identifier_map i = some s)
    (hj : lookupA c.get_id_to_identifier_map j = some s) : i = j := by
  have h1 := (idMap_lookup_iff h).mp hi
  have h2 := (idMap_lookup_iff h).mp hj
  have he := List.inj_on_of_nodup_map h.1 h1 h2 rfl
  exact congrArg Prod.snd he

theorem counts_entry_eq {c : CoOccurrenceCounter} (h : countsWF c)
    {e1 e2 : (Nat × Nat) × Nat} (h1 : e1 ∈ c.co_occurrence_counts)
    (h2 : e2 ∈ c.co_occurrence_counts) (hk : e1.1 = e2.1) : e1 = e2 :=
  List.inj_on_of_nodup_map h.1 h1 h2 hk

theorem metrics_char (lists : List (List String)) (target : String) (tid : Nat)
    (ht : lookupA (submitAll lists).identifier_to_id target = some tid) :
    ∃ m, (submitAll lists).get_metrics_for_identifier target = some m ∧
      ∀ (s : String) (n : Nat),
        lookupA m s = some n ↔
          ∃ i, lookupA (submitAll lists).identifier_to_id s = some i ∧
            lookupA (submitAll lists).co_occurrence_counts (canonPair tid i)
              = some n := by
  have hWF := WF_submitAll lists
  obtain ⟨hreg, hcnt⟩ := hWF
  set c := submitAll lists with hc
  have hcover : ∀ i, i < c.next_id →
      (lookupA c.get_id_to_identifier_map i).isSome := by
    intro i hi
    have hm : i ∈ c.get_id_to_identifier_map.map Prod.fst := by
      rw [idMap_keys, hreg.2]
      exact List.mem_range.mpr hi
    obtain ⟨v, hv⟩ := lookupA_isSome_of_mem_keys hm
    rw [hv]
    rfl
  have hdom1 : ∀ e ∈ c.co_occurrence_counts, e.1.1 = tid →
      (lookupA c.get_id_to_identifier_map e.1.2).isSome := by
    intro e he _
    have hk := hcnt.2 e.1 (List.mem_map.mpr ⟨e, he, rfl⟩)
    exact hcover _ hk.2
  have hdom2 : ∀ e ∈ c.co_occurrence_counts, ¬ e.1.1 = tid → e.1.2 = tid →
      (lookupA c.get_id_to_identifier_map e.1.1).isSome := by
    intro e he _ _
    have hk := hcnt.2 e.1 (List.mem_map.mpr ⟨e, he, rfl⟩)
    exact hcover _ (lt_of_le_of_lt hk.1 hk.2)
  have huniq : ∀ e1 ∈ c.co_occurrence_counts, ∀ e2 ∈ c.co_occurrence_counts,
      ∀ s, entryMatches c.get_id_to_identifier_map tid e1 s →
        entryMatches c.get_id_to_identifier_map tid e2 s → e1 = e2 := by
    intro e1 h1 e2 h2 s hm1 hm2
    have hk1 := hcnt.2 e1.1 (List.mem_map.mpr ⟨e1, h1, rfl⟩)
    have hk2 := hcnt.2 e2.1 (List.mem_map.mpr ⟨e2, h2, rfl⟩)
    apply counts_entry_eq hcnt h1 h2
    rcases hm1 with ⟨ha1, hl1⟩ | ⟨hna1, hb1, hl1⟩ <;>
      rcases hm2 with ⟨ha2, hl2⟩ | ⟨hna2, hb2, hl2⟩
    · have hx := idMap_lookup_inj hreg hl1 hl2
      have hy : e1.1.1 = e2.1.1 := ha1.trans ha2.symm
      exact Prod.ext hy hx
    · exfalso
      have hx := idMap_lookup_inj hreg hl1 hl2
      apply hna2
      obtain ⟨hle1, _⟩ := hk1
      obtain ⟨hle2, _⟩ := hk2
      omega
    · exfalso
      have hx := idMap_lookup_inj hreg hl1 hl2
      apply hna1
      obtain ⟨hle1, _⟩ := hk1
      obtain ⟨hle2, _⟩ := hk2
      omega
    · have hx := idMap_lookup_inj hreg hl1 hl2
      have hy : e1.1.2 = e2.1.2 := hb1.trans hb2.symm
      exact Prod.ext hx hy
  obtain ⟨mf, hmf, hiff⟩ := metricsLoop_spec c.get_id_to_identifier_map tid
    c.co_occurrence_counts [] hdom1 hdom2 huniq hcnt.1
  have hq : c.get_metrics_for_identifier target
      = metricsLoop c.get_id_to_identifier_map tid c.co_occurrence_counts [] := by
    unfold CoOccurrenceCounter.get_metrics_for_identifier
    rw [ht]
  refine ⟨mf, hq.trans hmf, ?_⟩
  intro s n
  rw [hiff s n]
  constructor
  · rintro (⟨e, he, hm, hv⟩ | ⟨_, h2⟩)
    · have hk := hcnt.2 e.1 (List.mem_map.mpr ⟨e, he, rfl⟩)
      rcases hm with ⟨ha, hl⟩ | ⟨hna, hb, hl⟩
      · refine ⟨e.1.2, lookupA_of_mem_nodup ((idMap_lookup_iff hreg).mp hl)
          hreg.1, ?_⟩
        have hcp : canonPair tid e.1.2 = e.1 := by
          rw [← ha, canonPair_eq_left hk.1]
        rw [hcp, ← hv]
        exact lookupA_of_mem_nodup he hcnt.1
      · refine ⟨e.1.1, lookupA_of_mem_nodup ((idMap_lookup_iff hreg).mp hl)
          hreg.1, ?_⟩
        have hcp : canonPair tid e.1.1 = e.1 := by
          rw [← hb, canonPair_eq_right hk.1]
        rw [hcp, ← hv]
        exact lookupA_of_mem_nodup he hcnt.1
    · exact absurd h2 (by simp [lookupA])
  · rintro ⟨i, hsi, hci⟩
    left
    refine ⟨(canonPair tid i, n), lookupA_mem hci, ?_, rfl⟩
    have hil : lookupA c.get_id_to_identifier_map i = some s :=
      (idMap_lookup_iff hreg).mpr (lookupA_mem hsi)
    unfold entryMatches
    by_cases hle : tid ≤ i
    · rw [canonPair_eq_left hle]
      exact Or.inl ⟨rfl, hil⟩
    · push_neg at hle
      rw [canonPair_eq_right (Nat.le_of_lt hle)]
      refine Or.inr ⟨?_, rfl, hil⟩
      show ¬ i = tid
      omega

/-- C6: querying a never-seen identifier returns the empty mapping without
error; querying a seen identifier (ID `tid`) returns a mapping whose
lookups are exactly: for every recorded pair involving `tid` — the
canonical key `canonPair tid i` for a registered ID `i` — the other
identifier's string bound to the recorded count, and nothing else. -/
theorem query_metrics_spec :
    (∀ (lists : List (List String)) (target : String),
        lookupA (submitAll lists).identifier_to_id target = none →
        (submitAll lists).get_metrics_for_identifier target = some []) ∧
    (∀ (lists : List (List String)) (target : String) (tid : Nat),
        lookupA (submitAll lists).identifier_to_id target = some tid →
        ∃ m, (submitAll lists).get_metrics_for_identifier target = some m ∧
          ∀ (s : String) (n : Nat),
            lookupA m s = some n ↔
              ∃ i, lookupA (submitAll lists).identifier_to_id s = some i ∧
                lookupA (submitAll lists).co_occurrence_counts (canonPair tid i)
                  = some n) := by
  constructor
  · intro lists target h
    unfold CoOccurrenceCounter.get_metrics_for_identifier
    rw [h]
  · exact metrics_char

/-- Witness for C6 at a concrete input: querying the never-seen "Z" after
one submit returns the empty mapping. -/
theorem query_metrics_spec_witness :
    lookupA (submitAll [["A", "B"]]).identifier_to_id "Z" = none ∧
    (submitAll [["A", "B"]]).get_metrics_for_identifier "Z" = some [] :=
  ⟨by decide, query_metrics_spec.1 [["A", "B"]] "Z" (by decide)⟩

/-- C10: if identifier `x` (ID `i`) has a recorded self-pair — the
canonical key with identical min and max, `(i, i)` — then querying `x`
returns a mapping that contains `x` itself, bound to the recorded
self-pair count. -/
theorem self_pair_query (lists : List (List String)) (x : String) (i n : Nat)
    (hx : lookupA (submitAll lists).identifier_to_id x = some i)
    (hp : lookupA (submitAll lists).co_occurrence_counts (i, i) = some n) :
    ∃ m, (submitAll lists).get_metrics_for_identifier x = some m ∧
      lookupA m x = some n := by
  obtain ⟨m, hm, hiff⟩ := metrics_char lists x i hx
  refine ⟨m, hm, (hiff x n).mpr ⟨i, hx, ?_⟩⟩
  rw [canonPair_eq_left (Nat.le_refl i)]
  exact hp

/-- Witness for C10 at a concrete input: submitting ["A", "A"] records the
self-pair (0, 0) once, and querying "A" maps "A" itself to 1. -/
theorem self_pair_query_witness :
    ∃ m, (submitAll [["A", "A"]]).get_metrics_for_identifier "A" = some m ∧
      lookupA m "A" = some 1 :=
  self_pair_query [["A", "A"]] "A" 0 1 (by decide) (by decide)
